import Mathlib

/-!
Shallow embedding of `src/travel.py` (D100 Space intra-system travel tables).

Python integers are modelled as `ℤ`, Python lists as `List`, and Python dicts
(which preserve insertion order; updating an existing key keeps its position)
as association lists.  The module-level random source is modelled as an
explicit finite stream of die rolls that each simulation step consumes;
`none` from a simulation means the finite stream ran out (the real program
draws from an inexhaustible generator).  The percentage expression
`round(float(count) / SAMPLES * 100)` is modelled bit-for-bit in IEEE-754
double precision by `pyFloatPercentage` (two correctly rounded operations,
then Python's ties-to-even integer rounding), with `pyRound` as the exact
ties-to-even rounding primitive; the one
`try/except IndexError` that the code relies on (`results[idx] = ...` in the
band-write loop) is modelled by `pySet`, which also reproduces Python's
negative-index semantics, and the guarded read `results[i + 1]` in the
backward fill pass is modelled by an explicit bounds check whose failure
branch mirrors the `raise i` in the source.
-/

/-- `SAMPLES = 15000`: Monte-Carlo samples per table entry (travel.py line 36). -/
def SAMPLES : ℕ := 15000

def MIN_SKILL : ℤ := 20

def MAX_SKILL : ℤ := 100

def SKILL_STEP : ℤ := 10

def MIN_DISTANCE : ℤ := 2

def MAX_DISTANCE : ℤ := 10

/-- Round the exact rational `num / den` (for `den > 0`) to the nearest
integer, ties to even — Python 3 `round` semantics on an exactly represented
value.  Used as the rounding primitive inside the double-precision model
below and for Python's final `round` on a double (whose value is exact). -/
def pyRound (num den : ℤ) : ℤ :=
  let q := num.fdiv den
  let r := num.fmod den
  if 2 * r < den then q
  else if den < 2 * r then q + 1
  else if q % 2 = 0 then q else q + 1

/-- Structural `⌊log2 n⌋` helper (0 at 0), kernel-computable. -/
def log2Fuel : ℕ → ℕ → ℕ
  | 0, _ => 0
  | fuel + 1, n => if 2 ≤ n then log2Fuel fuel (n / 2) + 1 else 0

/-- `⌊log2 n⌋` for `n ≥ 1`. -/
def natLog2 (n : ℕ) : ℕ := log2Fuel n n

/-- Is `2 ^ e ≤ a / b` (for `a, b ≥ 1`)? -/
def pow2LE (e : ℤ) (a b : ℕ) : Bool :=
  if 0 ≤ e then b * 2 ^ e.toNat ≤ a else b ≤ a * 2 ^ (-e).toNat

/-- `⌊log2 (a / b)⌋` for `a, b ≥ 1`. -/
def ratLog2 (a b : ℕ) : ℤ :=
  let e0 : ℤ := (natLog2 a : ℤ) - (natLog2 b : ℤ)
  if pow2LE e0 a b then e0 else e0 - 1

/-- The IEEE-754 double nearest to `a / b` (round to nearest, ties to even),
as a significand-exponent pair `(m, e)` of value `m · 2 ^ e` with
`2 ^ 52 ≤ m ≤ 2 ^ 53` for `a ≠ 0`.  Faithful at the magnitudes this program
produces; subnormals and overflow are not modelled. -/
def flPair (a b : ℕ) : ℤ × ℤ :=
  if a = 0 then (0, 0)
  else
    let e := ratLog2 a b
    let shift : ℤ := 52 - e
    let m : ℤ :=
      if 0 ≤ shift then pyRound ((a : ℤ) * 2 ^ shift.toNat) (b : ℤ)
      else pyRound (a : ℤ) ((b : ℤ) * 2 ^ (-shift).toNat)
    (m, e - 52)

/-- The exact value of the double `(m, e)` as a fraction (for `m ≥ 0`). -/
def qOfPair (p : ℤ × ℤ) : ℕ × ℕ :=
  if 0 ≤ p.2 then (p.1.toNat * 2 ^ p.2.toNat, 1) else (p.1.toNat, 2 ^ (-p.2).toNat)

/-- `round(rel_val * 100)` with `rel_val = float(count) / SAMPLES` of
travel.py lines 90-92, computed exactly as Python does: convert `count` to a
double, divide by `SAMPLES` (one correctly rounded IEEE-754 operation),
multiply by 100 (one correctly rounded operation), then round the resulting
double to the nearest integer, ties to even.  At the tie counts 8175 and 8625
this differs from exact-rational rounding, matching the program. -/
def pyFloatPercentage (c : ℤ) : ℤ :=
  let q1 := qOfPair (flPair c.toNat 1)
  let q2 := qOfPair (flPair q1.1 (q1.2 * SAMPLES))
  let d2 := flPair (q2.1 * 100) q2.2
  if 0 ≤ d2.2 then d2.1 * 2 ^ d2.2.toNat
  else pyRound d2.1 (2 ^ (-d2.2).toNat)

/-- The `Sample` dataclass of travel.py (lines 46-53). -/
structure Sample where
  count : ℤ
  absolute_percentage : ℤ := 0
  running_percentage : ℤ := 0
  deriving DecidableEq

/-- One iteration of the counting loop of `make_histogram` (lines 82-86):
`counts[r].count += 1` when the key exists, else `counts[r] = Sample(count=1)`.
The dict is an insertion-ordered association list from outcome to count. -/
def bump : List (ℤ × ℤ) → ℤ → List (ℤ × ℤ)
  | [], r => [(r, 1)]
  | (k, c) :: rest, r =>
    if k = r then (k, c + 1) :: rest else (k, c) :: bump rest r

/-- The percentage loop of `make_histogram` (lines 88-94), in dict order:
`absolute_percentage = round(count / SAMPLES * 100)` and the running total. -/
def annotate : List (ℤ × ℤ) → ℤ → List (ℤ × Sample)
  | [], _ => []
  | (k, c) :: rest, run =>
    let ap := pyFloatPercentage c
    (k, { count := c, absolute_percentage := ap, running_percentage := run + ap }) ::
      annotate rest (run + ap)

/-- `make_histogram` of travel.py (lines 79-96). -/
def make_histogram (results : List ℤ) : List (ℤ × Sample) :=
  annotate (results.foldl bump []) 0

/-- Python dict assignment `d[k] = v` on an insertion-ordered association list:
an existing key keeps its position and gets the new value, a new key is
appended at the end. -/
def dictSet : List (ℤ × ℤ) → ℤ → ℤ → List (ℤ × ℤ)
  | [], k, v => [(k, v)]
  | (k0, v0) :: rest, k, v =>
    if k0 = k then (k0, v) :: rest else (k0, v0) :: dictSet rest k v

/-- The histogram-inversion loop of `resample_into_d9` (lines 103-105):
`pl_by_running_total[histo[k].running_percentage] = k` for `k` in dict order.
The second component threads the iterated histogram through the loop (the
loop only reads it), so that non-mutation is an explicit theorem. -/
def invertLoop : List (ℤ × Sample) → List (ℤ × ℤ) → List (ℤ × ℤ) × List (ℤ × Sample)
  | [], d => (d, [])
  | (k, s) :: rest, d =>
    let out := invertLoop rest (dictSet d s.running_percentage k)
    (out.1, (k, s) :: out.2)

/-- Python list assignment `l[idx] = v` inside `try: ... except IndexError: pass`
(lines 112-116): a non-negative in-range index writes, a negative index within
`-len(l)` writes from the end, anything else raises `IndexError`, which the
source catches and ignores. -/
def pySet (l : List ℤ) (idx v : ℤ) : List ℤ :=
  if 0 ≤ idx ∧ idx < (l.length : ℤ) then l.set idx.toNat v
  else if 0 ≤ idx + (l.length : ℤ) ∧ idx < 0 then l.set (idx + (l.length : ℤ)).toNat v
  else l

/-- The band-write loop of `resample_into_d9` (lines 110-116):
`results[math.floor(k / 11)] = pl_by_running_total[k]` for each pair, with the
`IndexError` swallowed. -/
def bandWrite : List (ℤ × ℤ) → List ℤ → List ℤ
  | [], res => res
  | (rp, pl) :: rest, res => bandWrite rest (pySet res (rp.fdiv 11) pl)

/-- One iteration of the forward-fill loop (lines 121-123):
`if results[i] == min_value: results[i] = results[i - 1]`. -/
def fwdStep (m : ℤ) (res : List ℤ) (i : ℕ) : List ℤ :=
  if res.getD i 0 = m then res.set i (res.getD (i - 1) 0) else res

/-- The forward-fill loop over a list of indices (the source uses `range(1, 9)`). -/
def fwdFill (m : ℤ) : List ℕ → List ℤ → List ℤ
  | [], res => res
  | i :: is, res => fwdFill m is (fwdStep m res i)

/-- One iteration of the backward-fill loop (lines 125-130):
`if results[i] == min_value: results[i] = results[i + 1]`, where the read of
`results[i + 1]` sits in a `try` whose `except IndexError` branch raises `i`. -/
def backStep (m : ℤ) (res : List ℤ) (i : ℕ) : Except ℕ (List ℤ) :=
  if res.getD i 0 = m then
    if i + 1 < res.length then Except.ok (res.set i (res.getD (i + 1) 0))
    else Except.error i
  else Except.ok res

/-- The backward-fill loop over a list of indices (the source uses `range(7, 0, -1)`). -/
def backFill (m : ℤ) : List ℕ → List ℤ → Except ℕ (List ℤ)
  | [], res => Except.ok res
  | i :: is, res =>
    match backStep m res i with
    | Except.error e => Except.error e
    | Except.ok r => backFill m is r

/-- `range(1, 9)` of the forward-fill loop. -/
def fwdIdx : List ℕ := [1, 2, 3, 4, 5, 6, 7, 8]

/-- `range(7, 0, -1)` of the backward-fill loop. -/
def backIdx : List ℕ := [7, 6, 5, 4, 3, 2, 1]

/-- `resample_into_d9` (lines 99-136), with the iterated histogram threaded
through so that its final value is observable: the first component is the
function result (`Except.error i` mirrors the `raise i` of line 130), the
second is the histogram after the run. -/
def resampleST (histo : List (ℤ × Sample)) (min_value : ℤ) :
    Except ℕ (List ℤ) × List (ℤ × Sample) :=
  match backFill min_value backIdx
      (fwdFill min_value fwdIdx
        (bandWrite (invertLoop histo []).1 (List.replicate 9 min_value))) with
  | Except.error e => (Except.error e, (invertLoop histo []).2)
  | Except.ok res2 => (Except.ok (res2.map (fun v => min v 99)), (invertLoop histo []).2)

/-- `resample_into_d9` as the value-level function. -/
def resample_into_d9 (histo : List (ℤ × Sample)) (min_value : ℤ) : Except ℕ (List ℤ) :=
  (resampleST histo min_value).1

/-- The inner `while d > 0` loop of `cruise_tests` (lines 66-73), consuming one
roll from the stream per iteration; `none` means the finite stream ran out. -/
def cruiseTrial (t : ℤ) : ℤ → List ℤ → ℤ → Option (ℤ × List ℤ)
  | d, rolls, pl =>
    if d ≤ 0 then some (pl, rolls)
    else
      match rolls with
      | [] => none
      | r :: rest => cruiseTrial t (if r ≤ t ∨ r = 1 then d - 1 else d) rest (pl + 1)

/-- The outer `for _ in range(0, n)` loop of `cruise_tests`, collecting one
power-loss value per trial in trial order. -/
def cruiseRuns (t dist : ℤ) : ℕ → List ℤ → Option (List ℤ × List ℤ)
  | 0, rolls => some ([], rolls)
  | n + 1, rolls =>
    (cruiseTrial t dist rolls 0).bind fun pr =>
      (cruiseRuns t dist n pr.2).bind fun qr => some (pr.1 :: qr.1, qr.2)

/-- `cruise_tests` generalised over the trial count: run the trials, then
`return sorted(results)` (line 76). -/
def cruiseTestsN (n : ℕ) (t dist : ℤ) (rolls : List ℤ) : Option (List ℤ × List ℤ) :=
  (cruiseRuns t dist n rolls).bind fun pr => some (pr.1.insertionSort (· ≤ ·), pr.2)

/-- `cruise_tests` (lines 56-76): always `SAMPLES` trials. -/
def cruise_tests (t dist : ℤ) (rolls : List ℤ) : Option (List ℤ × List ℤ) :=
  cruiseTestsN SAMPLES t dist rolls

/-- `range(start, stop, step)` of Python for a positive step: the element
count is `⌈ (stop - start) / step ⌉` clamped at zero. -/
def rangeStepAux (start step : ℤ) : ℕ → List ℤ
  | 0 => []
  | n + 1 => start :: rangeStepAux (start + step) step n

/-- Python `range(start, stop, step)` for a positive step. -/
def rangeStep (start stop step : ℤ) : List ℤ :=
  if 0 < step then rangeStepAux start step ((stop - start + step - 1).fdiv step).toNat
  else []

/-- `range(MIN_SKILL, MAX_SKILL, SKILL_STEP)` of `main` (line 199). -/
def skillList : List ℤ := rangeStep MIN_SKILL MAX_SKILL SKILL_STEP

/-- `range(MIN_DISTANCE, MAX_DISTANCE)` of `main` (line 198). -/
def distanceList : List ℤ := rangeStep MIN_DISTANCE MAX_DISTANCE 1

/-- One grid cell of `main` (lines 200-202): simulate, build the histogram,
resample with `floor_value = distance`. -/
def cellCompute (skill distance : ℤ) (rolls : List ℤ) : Option (List ℤ × List ℤ) :=
  (cruiseTestsN SAMPLES skill distance rolls).bind fun pr =>
    (resample_into_d9 (make_histogram pr.1) distance).toOption.bind fun d9 =>
      some (d9, pr.2)

/-- The inner skill loop of `main`: one table entry per skill, keyed
`(skill, distance)`, threading the roll stream. -/
def assembleSkills (distance : ℤ) : List ℤ → List ℤ → Option (List ((ℤ × ℤ) × List ℤ) × List ℤ)
  | [], rolls => some ([], rolls)
  | skill :: ss, rolls =>
    (cellCompute skill distance rolls).bind fun pr =>
      (assembleSkills distance ss pr.2).bind fun qr =>
        some (((skill, distance), pr.1) :: qr.1, qr.2)

/-- The outer distance loop of `main`. -/
def assembleAll : List ℤ → List ℤ → Option (List ((ℤ × ℤ) × List ℤ) × List ℤ)
  | [], rolls => some ([], rolls)
  | d :: ds, rolls =>
    (assembleSkills d skillList rolls).bind fun pr =>
      (assembleAll ds pr.2).bind fun qr => some (pr.1 ++ qr.1, qr.2)

/-- The full table of `main` (lines 197-203), as a function of the roll stream. -/
def mainTable (rolls : List ℤ) : Option (List ((ℤ × ℤ) × List ℤ) × List ℤ) :=
  assembleAll distanceList rolls

/-- Lookup of `table[(skill, distance)]` on the assembled association list. -/
def lookupTable : List ((ℤ × ℤ) × List ℤ) → ℤ × ℤ → Option (List ℤ)
  | [], _ => none
  | (k, v) :: rest, key => if k = key then some v else lookupTable rest key

/-! ## Basic list lemmas -/

lemma getD_mem {α : Type} (l : List α) (i : ℕ) (d : α) (h : i < l.length) :
    l.getD i d ∈ l := by
  rw [List.getD_eq_getElem l d h]
  exact List.getElem_mem h

lemma getD_replicate (n i : ℕ) (a d : ℤ) (h : i < n) :
    (List.replicate n a).getD i d = a := by
  rw [List.getD_eq_getElem _ d (by simpa using h)]
  simp

lemma getD_set_self (l : List ℤ) (i : ℕ) (v : ℤ) (h : i < l.length) :
    (l.set i v).getD i 0 = v := by
  rw [List.getD_eq_getElem _ 0 (by simpa using h)]
  exact List.getElem_set_self (by simpa using h)

lemma getD_set_ne (l : List ℤ) (i j : ℕ) (v : ℤ) (hij : i ≠ j) :
    (l.set i v).getD j 0 = l.getD j 0 := by
  by_cases hj : j < l.length
  · rw [List.getD_eq_getElem _ 0 (by simpa using hj), List.getD_eq_getElem _ 0 hj]
    exact List.getElem_set_ne hij _
  · rw [List.getD_eq_default _ _ (by simpa using not_lt.mp hj),
      List.getD_eq_default _ _ (not_lt.mp hj)]

lemma sorted_replicate (n : ℕ) (a : ℤ) : List.Sorted (· ≤ ·) (List.replicate n a) := by
  induction n with
  | zero => simp
  | succ k ih =>
    rw [List.replicate_succ, List.sorted_cons]
    exact ⟨fun b hb => le_of_eq (List.eq_of_mem_replicate hb).symm, ih⟩

/-! ## Lemmas about `pySet`, `bandWrite` and the fill passes -/

lemma pySet_length (l : List ℤ) (idx v : ℤ) : (pySet l idx v).length = l.length := by
  unfold pySet
  split_ifs <;> simp

lemma pySet_mem {l : List ℤ} {idx v w : ℤ} (hw : w ∈ pySet l idx v) : w ∈ l ∨ w = v := by
  unfold pySet at hw
  split_ifs at hw
  · exact List.mem_or_eq_of_mem_set hw
  · exact List.mem_or_eq_of_mem_set hw
  · exact Or.inl hw

lemma pySet_oob (l : List ℤ) (idx v : ℤ) (h : (l.length : ℤ) ≤ idx) : pySet l idx v = l := by
  unfold pySet
  split_ifs with h1 h2
  · exfalso; omega
  · exfalso; omega
  · rfl

lemma pySet_replicate_self (n : ℕ) (a : ℤ) (idx : ℤ) :
    pySet (List.replicate n a) idx a = List.replicate n a := by
  unfold pySet
  split_ifs <;> simp [List.set_replicate_self]

lemma bandWrite_length : ∀ (pairs : List (ℤ × ℤ)) (res : List ℤ),
    (bandWrite pairs res).length = res.length
  | [], _ => rfl
  | (rp, pl) :: rest, res => by
    rw [bandWrite, bandWrite_length rest, pySet_length]

lemma bandWrite_mem : ∀ (pairs : List (ℤ × ℤ)) (res : List ℤ) (w : ℤ),
    w ∈ bandWrite pairs res → w ∈ res ∨ ∃ p ∈ pairs, w = p.2
  | [], res, w, hw => Or.inl hw
  | (rp, pl) :: rest, res, w, hw => by
    rcases bandWrite_mem rest _ w hw with h | ⟨p, hp, he⟩
    · rcases pySet_mem h with h' | h'
      · exact Or.inl h'
      · exact Or.inr ⟨(rp, pl), List.mem_cons_self _ _, h'⟩
    · exact Or.inr ⟨p, List.mem_cons_of_mem _ hp, he⟩

lemma bandWrite_uniform : ∀ (pairs : List (ℤ × ℤ)) (n : ℕ) (a : ℤ),
    (∀ p ∈ pairs, p.2 = a) → bandWrite pairs (List.replicate n a) = List.replicate n a
  | [], _, _, _ => rfl
  | (rp, pl) :: rest, n, a, h => by
    have hpl : pl = a := h (rp, pl) (List.mem_cons_self _ _)
    rw [bandWrite, hpl, pySet_replicate_self]
    exact bandWrite_uniform rest n a fun p hp => h p (List.mem_cons_of_mem _ hp)

lemma fwdStep_length (m : ℤ) (res : List ℤ) (i : ℕ) :
    (fwdStep m res i).length = res.length := by
  unfold fwdStep
  split_ifs <;> simp

lemma fwdStep_mem {m : ℤ} {res : List ℤ} {i : ℕ} (hi : i < res.length) {w : ℤ}
    (hw : w ∈ fwdStep m res i) : w ∈ res := by
  unfold fwdStep at hw
  split_ifs at hw
  · rcases List.mem_or_eq_of_mem_set hw with h | h
    · exact h
    · rw [h]; exact getD_mem _ _ _ (lt_of_le_of_lt (Nat.sub_le i 1) hi)
  · exact hw

lemma fwdFill_length : ∀ (idxs : List ℕ) (m : ℤ) (res : List ℤ),
    (fwdFill m idxs res).length = res.length
  | [], _, _ => rfl
  | i :: is, m, res => by
    rw [fwdFill, fwdFill_length is, fwdStep_length]

lemma fwdFill_mem : ∀ (idxs : List ℕ) (m : ℤ) (res : List ℤ),
    (∀ i ∈ idxs, i < res.length) → ∀ w ∈ fwdFill m idxs res, w ∈ res
  | [], _, _, _, w, hw => hw
  | i :: is, m, res, hidx, w, hw => by
    have hi : i < res.length := hidx i (List.mem_cons_self _ _)
    have hlen : (fwdStep m res i).length = res.length := fwdStep_length m res i
    have := fwdFill_mem is m (fwdStep m res i)
      (fun j hj => hlen ▸ hidx j (List.mem_cons_of_mem _ hj)) w hw
    exact fwdStep_mem hi this

lemma fwdFill_replicate : ∀ (idxs : List ℕ) (m : ℤ),
    (∀ i ∈ idxs, i < 9) → fwdFill m idxs (List.replicate 9 m) = List.replicate 9 m
  | [], _, _ => rfl
  | i :: is, m, hidx => by
    have hi : i < 9 := hidx i (List.mem_cons_self _ _)
    have hstep : fwdStep m (List.replicate 9 m) i = List.replicate 9 m := by
      unfold fwdStep
      rw [getD_replicate _ _ _ _ hi, if_pos rfl,
        getD_replicate _ _ _ _ (lt_of_le_of_lt (Nat.sub_le i 1) hi),
        List.set_replicate_self]
    rw [fwdFill, hstep]
    exact fwdFill_replicate is m fun j hj => hidx j (List.mem_cons_of_mem _ hj)

lemma backFill_ok_sub : ∀ (idxs : List ℕ) (m : ℤ) (res : List ℤ),
    (∀ i ∈ idxs, i + 1 < res.length) →
    ∃ r, backFill m idxs res = Except.ok r ∧ r.length = res.length ∧ ∀ w ∈ r, w ∈ res
  | [], m, res, _ => ⟨res, rfl, rfl, fun _ hw => hw⟩
  | i :: is, m, res, hidx => by
    have hi : i + 1 < res.length := hidx i (List.mem_cons_self _ _)
    by_cases hsent : res.getD i 0 = m
    · have hstep : backStep m res i = Except.ok (res.set i (res.getD (i + 1) 0)) := by
        unfold backStep
        rw [if_pos hsent, if_pos hi]
      obtain ⟨r, hr, hlen, hsub⟩ := backFill_ok_sub is m (res.set i (res.getD (i + 1) 0))
        (fun j hj => by
          rw [List.length_set]; exact hidx j (List.mem_cons_of_mem _ hj))
      refine ⟨r, ?_, by rw [hlen, List.length_set], fun w hw => ?_⟩
      · rw [backFill, hstep]; exact hr
      · rcases List.mem_or_eq_of_mem_set (hsub w hw) with h | h
        · exact h
        · rw [h]; exact getD_mem _ _ _ hi
    · have hstep : backStep m res i = Except.ok res := by
        unfold backStep
        rw [if_neg hsent]
      obtain ⟨r, hr, hlen, hsub⟩ := backFill_ok_sub is m res
        (fun j hj => hidx j (List.mem_cons_of_mem _ hj))
      exact ⟨r, by rw [backFill, hstep]; exact hr, hlen, hsub⟩

lemma backFill_replicate : ∀ (idxs : List ℕ) (m : ℤ),
    (∀ i ∈ idxs, i + 1 < 9) →
    backFill m idxs (List.replicate 9 m) = Except.ok (List.replicate 9 m)
  | [], _, _ => rfl
  | i :: is, m, hidx => by
    have hi : i + 1 < 9 := hidx i (List.mem_cons_self _ _)
    have hstep : backStep m (List.replicate 9 m) i = Except.ok (List.replicate 9 m) := by
      unfold backStep
      rw [getD_replicate _ _ _ _ (by omega), if_pos rfl]
      rw [List.length_replicate, if_pos hi, getD_replicate _ _ _ _ hi,
        List.set_replicate_self]
    rw [backFill, hstep]
    exact backFill_replicate is m fun j hj => hidx j (List.mem_cons_of_mem _ hj)

/-! ## Lemmas about the inversion loop and the whole resampler -/

lemma dictSet_mem : ∀ (d : List (ℤ × ℤ)) (k v a b : ℤ),
    (a, b) ∈ dictSet d k v → (a, b) ∈ d ∨ b = v
  | [], k, v, a, b, h => by
    rw [dictSet] at h
    rcases List.mem_singleton.mp h with h'
    exact Or.inr (congrArg Prod.snd h')
  | (k0, v0) :: rest, k, v, a, b, h => by
    rw [dictSet] at h
    split_ifs at h
    · rcases List.mem_cons.mp h with h' | h'
      · exact Or.inr (congrArg Prod.snd h')
      · exact Or.inl (List.mem_cons_of_mem _ h')
    · rcases List.mem_cons.mp h with h' | h'
      · exact Or.inl (List.mem_cons.mpr (Or.inl h'))
      · rcases dictSet_mem rest k v a b h' with h2 | h2
        · exact Or.inl (List.mem_cons_of_mem _ h2)
        · exact Or.inr h2

lemma invertLoop_snd : ∀ (h : List (ℤ × Sample)) (acc : List (ℤ × ℤ)),
    (invertLoop h acc).2 = h
  | [], _ => rfl
  | (k, s) :: rest, acc => by
    rw [invertLoop]
    simpa using invertLoop_snd rest (dictSet acc s.running_percentage k)

lemma invertLoop_fst_mem : ∀ (h : List (ℤ × Sample)) (acc : List (ℤ × ℤ)) (rp k : ℤ),
    (rp, k) ∈ (invertLoop h acc).1 → (rp, k) ∈ acc ∨ ∃ s, (k, s) ∈ h
  | [], acc, rp, k, hm => Or.inl hm
  | (k0, s0) :: rest, acc, rp, k, hm => by
    rw [invertLoop] at hm
    rcases invertLoop_fst_mem rest _ rp k hm with h1 | ⟨s, hs⟩
    · rcases dictSet_mem _ _ _ _ _ h1 with h2 | h2
      · exact Or.inl h2
      · exact Or.inr ⟨s0, by rw [h2]; exact List.mem_cons_self _ _⟩
    · exact Or.inr ⟨s, List.mem_cons_of_mem _ hs⟩

/-- Master lemma for `resample_into_d9`: it always returns `Except.ok`, the
result has length 9, and every entry is the 99-clamp of either the sentinel
`min_value` or an outcome key of the histogram. -/
lemma resample_master (h : List (ℤ × Sample)) (m : ℤ) :
    ∃ l, resample_into_d9 h m = Except.ok l ∧ l.length = 9 ∧
      ∀ v ∈ l, ∃ u, (u = m ∨ ∃ k s, (k, s) ∈ h ∧ u = k) ∧ v = min u 99 := by
  classical
  set res0 := bandWrite (invertLoop h []).1 (List.replicate 9 m) with hres0
  have hlen0 : res0.length = 9 := by
    rw [hres0, bandWrite_length, List.length_replicate]
  have hmem0 : ∀ w ∈ res0, w = m ∨ ∃ k s, (k, s) ∈ h ∧ w = k := by
    intro w hw
    rcases bandWrite_mem _ _ _ hw with h1 | ⟨p, hp, he⟩
    · exact Or.inl (List.eq_of_mem_replicate h1)
    · rcases invertLoop_fst_mem h [] p.1 p.2 hp with h2 | ⟨s, hs⟩
      · simp at h2
      · exact Or.inr ⟨p.2, s, hs, he⟩
  set res1 := fwdFill m fwdIdx res0 with hres1
  have hlen1 : res1.length = 9 := by rw [hres1, fwdFill_length, hlen0]
  have hmem1 : ∀ w ∈ res1, w = m ∨ ∃ k s, (k, s) ∈ h ∧ w = k := by
    intro w hw
    exact hmem0 w (fwdFill_mem fwdIdx m res0
      (by rw [hlen0]; decide) w hw)
  obtain ⟨r, hr, hlenr, hsubr⟩ := backFill_ok_sub backIdx m res1
    (by rw [hlen1]; decide)
  refine ⟨r.map (fun v => min v 99), ?_, by rw [List.length_map, hlenr, hlen1], ?_⟩
  · unfold resample_into_d9 resampleST
    rw [← hres0, ← hres1, hr]
  · intro v hv
    obtain ⟨u, hu, rfl⟩ := List.mem_map.mp hv
    exact ⟨u, hmem1 u (hsubr u hu), rfl⟩

/-- Descending index list `[j, j-1, ..., 1]`; `descIdx 7` is the source's
`range(7, 0, -1)`. -/
def descIdx : ℕ → List ℕ
  | 0 => []
  | j + 1 => (j + 1) :: descIdx j

lemma descIdx_seven : descIdx 7 = backIdx := rfl

/-- Exact characterisation of the backward-fill pass over indices
`[j, ..., 1]`: slots outside `[1, j]` are untouched, and a slot in `[1, j]`
is the following slot's final value when it held the sentinel, its old value
otherwise. -/
lemma backFill_from : ∀ (j : ℕ) (m : ℤ) (l : List ℤ), j + 1 < l.length →
    ∃ r, backFill m (descIdx j) l = Except.ok r ∧ r.length = l.length ∧
      (∀ i, i = 0 ∨ j < i → r.getD i 0 = l.getD i 0) ∧
      (∀ i, 1 ≤ i → i ≤ j →
        r.getD i 0 = if l.getD i 0 = m then r.getD (i + 1) 0 else l.getD i 0)
  | 0, m, l, _ => ⟨l, rfl, rfl, fun _ _ => rfl, fun i h1 h2 => absurd (le_trans h1 h2) (by omega)⟩
  | j + 1, m, l, hj => by
    have hlt : j + 1 < l.length := by omega
    by_cases hsent : l.getD (j + 1) 0 = m
    · have hstep : backStep m l (j + 1) = Except.ok (l.set (j + 1) (l.getD (j + 2) 0)) := by
        unfold backStep
        rw [if_pos hsent, if_pos hj]
      set l2 := l.set (j + 1) (l.getD (j + 2) 0) with hl2
      have hlen2 : l2.length = l.length := List.length_set _ _ _
      have hl2at : ∀ i, i ≠ j + 1 → l2.getD i 0 = l.getD i 0 := fun i hi =>
        getD_set_ne _ _ _ _ (fun he => hi he.symm)
      have hl2self : l2.getD (j + 1) 0 = l.getD (j + 2) 0 :=
        getD_set_self _ _ _ hlt
      obtain ⟨r, hr, hlenr, hout, hrec⟩ := backFill_from j m l2 (by omega)
      refine ⟨r, ?_, by rw [hlenr, hlen2], ?_, ?_⟩
      · show backFill m ((j + 1) :: descIdx j) l = Except.ok r
        rw [backFill, hstep]
        exact hr
      · intro i hi
        have hine : i ≠ j + 1 := by omega
        rw [hout i (by omega), hl2at i hine]
      · intro i h1 h2
        rcases Nat.lt_or_ge i (j + 1) with hlt2 | hge
        · have hmid := hrec i h1 (by omega)
          rw [hl2at i (by omega)] at hmid
          exact hmid
        · have hieq : i = j + 1 := by omega
          rw [hieq, hout (j + 1) (by omega), hl2self, if_pos hsent,
            hout (j + 2) (by omega), hl2at (j + 2) (by omega)]
    · have hstep : backStep m l (j + 1) = Except.ok l := by
        unfold backStep
        rw [if_neg hsent]
      obtain ⟨r, hr, hlenr, hout, hrec⟩ := backFill_from j m l (by omega)
      refine ⟨r, ?_, hlenr, ?_, ?_⟩
      · show backFill m ((j + 1) :: descIdx j) l = Except.ok r
        rw [backFill, hstep]
        exact hr
      · intro i hi
        rcases hi with hi | hi
        · exact hout i (Or.inl hi)
        · exact hout i (Or.inr (by omega))
      · intro i h1 h2
        rcases Nat.lt_or_ge i (j + 1) with hlt2 | hge
        · exact hrec i h1 (by omega)
        · have hieq : i = j + 1 := by omega
          rw [hieq, hout (j + 1) (by omega), if_neg hsent]

/-! ## Resampling a uniform (single-outcome) result list -/

/-- Reduce `resample_into_d9` once the band-write / fill pipeline value is known. -/
lemma resample_eval (h : List (ℤ × Sample)) (m : ℤ) (r : List ℤ)
    (hb : backFill m backIdx (fwdFill m fwdIdx
      (bandWrite (invertLoop h []).1 (List.replicate 9 m))) = Except.ok r) :
    resample_into_d9 h m = Except.ok (r.map (fun v => min v 99)) := by
  unfold resample_into_d9 resampleST
  rw [hb]

/-- A single-bucket histogram whose only outcome equals the sentinel resamples
to the clamped constant table, whatever the bucket's percentages are. -/
lemma resample_single_self (s : Sample) (m : ℤ) :
    resample_into_d9 [(m, s)] m = Except.ok (List.replicate 9 (min m 99)) := by
  have hfwd : fwdFill m fwdIdx (List.replicate 9 m) = List.replicate 9 m :=
    fwdFill_replicate fwdIdx m (by decide)
  have hback : backFill m backIdx (List.replicate 9 m) = Except.ok (List.replicate 9 m) :=
    backFill_replicate backIdx m (by decide)
  have hinv : (invertLoop [(m, s)] []).1 = [(s.running_percentage, m)] := rfl
  have hbw : bandWrite [(s.running_percentage, m)] (List.replicate 9 m) =
      List.replicate 9 m := by
    rw [bandWrite, pySet_replicate_self]
    rfl
  have hb := resample_eval [(m, s)] m (List.replicate 9 m)
    (by rw [hinv, hbw, hfwd, hback])
  rw [hb, List.map_replicate]

lemma foldl_bump_replicate : ∀ (n : ℕ) (c k : ℤ),
    List.foldl bump [(c, k)] (List.replicate n c) = [(c, k + n)]
  | 0, c, k => by simp
  | n + 1, c, k => by
    rw [List.replicate_succ, List.foldl_cons]
    have h1 : bump [(c, k)] c = [(c, k + 1)] := by
      rw [bump, if_pos rfl]
    rw [h1, foldl_bump_replicate n c (k + 1)]
    have h2 : k + 1 + (n : ℤ) = k + ((n : ℕ) + 1 : ℕ) := by push_cast; ring
    rw [h2]

lemma make_histogram_replicate (n : ℕ) (c : ℤ) :
    make_histogram (List.replicate (n + 1) c) =
      [(c, { count := (1 : ℤ) + n,
             absolute_percentage := pyFloatPercentage ((1 : ℤ) + n),
             running_percentage := 0 + pyFloatPercentage ((1 : ℤ) + n) })] := by
  unfold make_histogram
  rw [List.replicate_succ, List.foldl_cons]
  have h1 : bump [] c = [(c, 1)] := rfl
  rw [h1, foldl_bump_replicate n c 1]
  rfl

/-- Resampling any uniform result list with the outcome itself as the floor
value gives the clamped constant table — in particular this covers the empty
result list (empty histogram). -/
lemma resample_uniform (n : ℕ) (c : ℤ) :
    resample_into_d9 (make_histogram (List.replicate n c)) c =
      Except.ok (List.replicate 9 (min c 99)) := by
  cases n with
  | zero =>
    have hfwd : fwdFill c fwdIdx (List.replicate 9 c) = List.replicate 9 c :=
      fwdFill_replicate fwdIdx c (by decide)
    have hback : backFill c backIdx (List.replicate 9 c) = Except.ok (List.replicate 9 c) :=
      backFill_replicate backIdx c (by decide)
    have hb := resample_eval [] c (List.replicate 9 c) (by
      have hbw : bandWrite (invertLoop [] []).1 (List.replicate 9 c) =
          List.replicate 9 c := rfl
      rw [hbw, hfwd, hback])
    have hmh : make_histogram (List.replicate 0 c) = [] := rfl
    rw [hmh, hb, List.map_replicate]
  | succ k =>
    rw [make_histogram_replicate k c]
    exact resample_single_self _ c

/-! ## Lemmas about the cruise simulation -/

lemma cruiseTrial_nonpos (t d : ℤ) (rolls : List ℤ) (pl : ℤ) (hd : d ≤ 0) :
    cruiseTrial t d rolls pl = some (pl, rolls) := by
  cases rolls with
  | nil => rw [cruiseTrial.eq_1, if_pos hd]
  | cons r rest => rw [cruiseTrial.eq_2, if_pos hd]

lemma cruiseRuns_nonpos (t d : ℤ) (hd : d ≤ 0) : ∀ (n : ℕ) (rolls : List ℤ),
    cruiseRuns t d n rolls = some (List.replicate n 0, rolls)
  | 0, rolls => rfl
  | n + 1, rolls => by
    rw [cruiseRuns, cruiseTrial_nonpos t d rolls 0 hd, Option.some_bind,
      cruiseRuns_nonpos t d hd n rolls, Option.some_bind, List.replicate_succ]

lemma cruiseTrial_nil (t d pl : ℤ) (hd : ¬ d ≤ 0) : cruiseTrial t d [] pl = none := by
  rw [cruiseTrial.eq_1, if_neg hd]

lemma cruiseTrial_cons (t d pl r : ℤ) (rest : List ℤ) (hd : ¬ d ≤ 0) :
    cruiseTrial t d (r :: rest) pl =
      cruiseTrial t (if r ≤ t ∨ r = 1 then d - 1 else d) rest (pl + 1) := by
  rw [cruiseTrial.eq_2, if_neg hd]

lemma cruiseTrial_success : ∀ (rolls : List ℤ) (t d pl : ℤ) (out : ℤ × List ℤ),
    (∀ r ∈ rolls, r ≤ t) → cruiseTrial t d rolls pl = some out →
    out.1 = pl + (d.toNat : ℤ) ∧ ∀ r ∈ out.2, r ≤ t
  | [], t, d, pl, out, hall, hrun => by
    by_cases hd : d ≤ 0
    · rw [cruiseTrial_nonpos t d [] pl hd] at hrun
      cases hrun
      refine ⟨?_, by intro r hr; cases hr⟩
      have h0 : d.toNat = 0 := by omega
      rw [h0]
      push_cast
      ring
    · rw [cruiseTrial_nil t d pl hd] at hrun
      cases hrun
  | r :: rest, t, d, pl, out, hall, hrun => by
    by_cases hd : d ≤ 0
    · rw [cruiseTrial_nonpos t d (r :: rest) pl hd] at hrun
      cases hrun
      refine ⟨?_, hall⟩
      have h0 : d.toNat = 0 := by omega
      rw [h0]
      push_cast
      ring
    · rw [cruiseTrial_cons t d pl r rest hd,
        if_pos (Or.inl (hall r (List.mem_cons_self _ _)))] at hrun
      obtain ⟨h1, h2⟩ := cruiseTrial_success rest t (d - 1) (pl + 1) out
        (fun x hx => hall x (List.mem_cons_of_mem _ hx)) hrun
      refine ⟨?_, h2⟩
      rw [h1]
      have h3 : ((d - 1).toNat : ℤ) = (d.toNat : ℤ) - 1 := by omega
      rw [h3]
      ring

lemma cruiseRuns_success : ∀ (n : ℕ) (t d : ℤ) (rolls pls rest : List ℤ),
    (∀ r ∈ rolls, r ≤ t) → cruiseRuns t d n rolls = some (pls, rest) →
    pls = List.replicate n ((d.toNat : ℤ)) ∧ ∀ r ∈ rest, r ≤ t
  | 0, t, d, rolls, pls, rest, hall, hrun => by
    rw [cruiseRuns] at hrun
    cases hrun
    exact ⟨rfl, hall⟩
  | n + 1, t, d, rolls, pls, rest, hall, hrun => by
    rw [cruiseRuns] at hrun
    cases htr : cruiseTrial t d rolls 0 with
    | none => rw [htr, Option.none_bind] at hrun; cases hrun
    | some out =>
      rw [htr, Option.some_bind] at hrun
      obtain ⟨h1, h2⟩ := cruiseTrial_success rolls t d 0 out hall htr
      cases hrn : cruiseRuns t d n out.2 with
      | none => rw [hrn, Option.none_bind] at hrun; cases hrun
      | some pr =>
        rw [hrn, Option.some_bind] at hrun
        obtain ⟨h3, h4⟩ := cruiseRuns_success n t d out.2 pr.1 pr.2 h2 hrn
        cases hrun
        refine ⟨?_, h4⟩
        rw [List.replicate_succ, ← h3, h1]
        norm_num

lemma cruiseTestsN_success (n : ℕ) (t d : ℤ) (rolls res rest : List ℤ)
    (hall : ∀ r ∈ rolls, r ≤ t) (h : cruiseTestsN n t d rolls = some (res, rest)) :
    res = List.replicate n ((d.toNat : ℤ)) := by
  rw [cruiseTestsN] at h
  cases hrn : cruiseRuns t d n rolls with
  | none => rw [hrn, Option.none_bind] at h; cases h
  | some pr =>
    rw [hrn, Option.some_bind] at h
    obtain ⟨h1, _⟩ := cruiseRuns_success n t d rolls pr.1 pr.2 hall hrn
    cases h
    rw [h1]
    exact List.Sorted.insertionSort_eq (sorted_replicate _ _)

lemma cruiseTrial_ones : ∀ (M : ℕ) (t d pl : ℤ), d.toNat ≤ M →
    cruiseTrial t d (List.replicate M 1) pl =
      some (pl + (d.toNat : ℤ), List.replicate (M - d.toNat) 1)
  | 0, t, d, pl, hM => by
    have hd : d ≤ 0 := by omega
    rw [cruiseTrial_nonpos t d _ pl hd]
    have h0 : d.toNat = 0 := by omega
    rw [h0]
    push_cast
    norm_num
  | M + 1, t, d, pl, hM => by
    by_cases hd : d ≤ 0
    · rw [cruiseTrial_nonpos t d _ pl hd]
      have h0 : d.toNat = 0 := by omega
      rw [h0]
      push_cast
      norm_num
    · rw [List.replicate_succ, cruiseTrial_cons t d pl 1 _ hd, if_pos (Or.inr rfl),
        cruiseTrial_ones M t (d - 1) (pl + 1) (by omega)]
      have h1 : pl + 1 + ((d - 1).toNat : ℤ) = pl + (d.toNat : ℤ) := by omega
      have h2 : M - (d - 1).toNat = M + 1 - d.toNat := by omega
      rw [h1, h2]

lemma cruiseRuns_ones : ∀ (n M : ℕ) (t d : ℤ), n * d.toNat ≤ M →
    cruiseRuns t d n (List.replicate M 1) =
      some (List.replicate n ((d.toNat : ℤ)), List.replicate (M - n * d.toNat) 1)
  | 0, M, t, d, hM => by
    rw [cruiseRuns]
    norm_num
  | n + 1, M, t, d, hM => by
    have hexp : (n + 1) * d.toNat = n * d.toNat + d.toNat := by ring
    rw [cruiseRuns, cruiseTrial_ones M t d 0 (by omega), Option.some_bind,
      cruiseRuns_ones n (M - d.toNat) t d (by omega), Option.some_bind]
    have h1 : M - d.toNat - n * d.toNat = M - (n + 1) * d.toNat := by omega
    rw [h1, zero_add, ← List.replicate_succ]

lemma cruiseTestsN_ones (n M : ℕ) (t d : ℤ) (hM : n * d.toNat ≤ M) :
    cruiseTestsN n t d (List.replicate M 1) =
      some (List.replicate n ((d.toNat : ℤ)), List.replicate (M - n * d.toNat) 1) := by
  rw [cruiseTestsN, cruiseRuns_ones n M t d hM, Option.some_bind]
  have := List.Sorted.insertionSort_eq (sorted_replicate n ((d.toNat : ℤ)))
  rw [this]

lemma cellCompute_ones (s d : ℤ) (M : ℕ) (hd : 0 ≤ d) (hM : SAMPLES * d.toNat ≤ M) :
    cellCompute s d (List.replicate M 1) =
      some (List.replicate 9 (min d 99), List.replicate (M - SAMPLES * d.toNat) 1) := by
  rw [cellCompute, cruiseTestsN_ones SAMPLES M s d hM, Option.some_bind]
  have hcast : ((d.toNat : ℤ)) = d := Int.toNat_of_nonneg hd
  rw [hcast, resample_uniform SAMPLES d]
  rfl

/-! ## Assembling the whole table -/

/-- The uniform table produced by an all-ones roll stream: every draw is a
critical success, so every cell is the constant table of its distance. -/
def uniformTable : List ((ℤ × ℤ) × List ℤ) :=
  distanceList.flatMap fun d => skillList.map fun s => ((s, d), List.replicate 9 (min d 99))

/-- Rolls consumed by `assembleAll` on a list of distances when every trial
succeeds on every draw. -/
def assembleNeed (ds : List ℤ) : ℕ :=
  (ds.map fun d => skillList.length * (SAMPLES * d.toNat)).sum

lemma assembleSkills_ones : ∀ (ss : List ℤ) (d : ℤ) (M : ℕ), 0 ≤ d →
    ss.length * (SAMPLES * d.toNat) ≤ M →
    assembleSkills d ss (List.replicate M 1) =
      some (ss.map (fun s => ((s, d), List.replicate 9 (min d 99))),
        List.replicate (M - ss.length * (SAMPLES * d.toNat)) 1)
  | [], d, M, hd, hM => by
    rw [assembleSkills]
    norm_num
  | s :: ss, d, M, hd, hM => by
    have hexp : (s :: ss).length * (SAMPLES * d.toNat)
        = SAMPLES * d.toNat + ss.length * (SAMPLES * d.toNat) := by
      rw [List.length_cons]
      ring
    rw [assembleSkills, cellCompute_ones s d M hd (by omega), Option.some_bind,
      assembleSkills_ones ss d (M - SAMPLES * d.toNat) hd (by omega), Option.some_bind,
      List.map_cons]
    have h1 : M - SAMPLES * d.toNat - ss.length * (SAMPLES * d.toNat)
        = M - (s :: ss).length * (SAMPLES * d.toNat) := by omega
    rw [h1]

lemma assembleAll_ones : ∀ (ds : List ℤ) (M : ℕ), (∀ d ∈ ds, 0 ≤ d) →
    assembleNeed ds ≤ M →
    assembleAll ds (List.replicate M 1) =
      some (ds.flatMap (fun d => skillList.map fun s => ((s, d), List.replicate 9 (min d 99))),
        List.replicate (M - assembleNeed ds) 1)
  | [], M, _, _ => by
    rw [assembleAll, assembleNeed]
    norm_num
  | d :: ds, M, hpos, hM => by
    have hd : 0 ≤ d := hpos d (List.mem_cons_self _ _)
    have hexp : assembleNeed (d :: ds)
        = skillList.length * (SAMPLES * d.toNat) + assembleNeed ds := by
      rw [assembleNeed, assembleNeed, List.map_cons, List.sum_cons]
    rw [hexp] at hM
    rw [assembleAll,
      assembleSkills_ones skillList d M hd (by omega), Option.some_bind,
      assembleAll_ones ds (M - skillList.length * (SAMPLES * d.toNat))
        (fun x hx => hpos x (List.mem_cons_of_mem _ hx)) (by omega), Option.some_bind,
      List.flatMap_cons]
    have h1 : M - skillList.length * (SAMPLES * d.toNat) - assembleNeed ds
        = M - assembleNeed (d :: ds) := by omega
    rw [h1]

lemma mainTable_ones :
    mainTable (List.replicate 5280000 1) = some (uniformTable, []) := by
  have hneed : assembleNeed distanceList = 5280000 := by decide
  rw [mainTable, assembleAll_ones distanceList 5280000 (by decide) (by rw [hneed]),
    hneed, uniformTable]
  norm_num

lemma cellCompute_len (s d : ℤ) (rolls : List ℤ) (pr : List ℤ × List ℤ)
    (h : cellCompute s d rolls = some pr) : pr.1.length = 9 := by
  rw [cellCompute] at h
  cases htn : cruiseTestsN SAMPLES s d rolls with
  | none => rw [htn, Option.none_bind] at h; cases h
  | some qr =>
    rw [htn, Option.some_bind] at h
    obtain ⟨l, hok, hlen, _⟩ := resample_master (make_histogram qr.1) d
    rw [hok] at h
    cases h
    exact hlen

lemma lookupTable_append_left (t1 t2 : List ((ℤ × ℤ) × List ℤ)) (key : ℤ × ℤ)
    (v : List ℤ) (h : lookupTable t1 key = some v) :
    lookupTable (t1 ++ t2) key = some v := by
  induction t1 with
  | nil => simp [lookupTable] at h
  | cons e t1 ih =>
    rw [lookupTable] at h
    rw [List.cons_append, lookupTable]
    split_ifs at h with he
    · rw [if_pos he]; exact h
    · rw [if_neg he]; exact ih h

lemma lookupTable_eq_none (t1 : List ((ℤ × ℤ) × List ℤ)) (key : ℤ × ℤ)
    (h : ∀ e ∈ t1, e.1 ≠ key) : lookupTable t1 key = none := by
  induction t1 with
  | nil => rfl
  | cons e t1 ih =>
    rw [lookupTable, if_neg (h e (List.mem_cons_self _ _))]
    exact ih fun x hx => h x (List.mem_cons_of_mem _ hx)

lemma lookupTable_append_right (t1 t2 : List ((ℤ × ℤ) × List ℤ)) (key : ℤ × ℤ)
    (h : lookupTable t1 key = none) :
    lookupTable (t1 ++ t2) key = lookupTable t2 key := by
  induction t1 with
  | nil => rfl
  | cons e t1 ih =>
    rw [lookupTable] at h
    rw [List.cons_append, lookupTable]
    split_ifs at h with he
    rw [if_neg he]
    exact ih h

lemma assembleSkills_keys : ∀ (ss : List ℤ) (d : ℤ) (rolls : List ℤ)
    (out : List ((ℤ × ℤ) × List ℤ) × List ℤ),
    assembleSkills d ss rolls = some out → ∀ e ∈ out.1, e.1.2 = d
  | [], d, rolls, out, h => by
    rw [assembleSkills] at h
    cases h
    intro e he
    cases he
  | s :: ss, d, rolls, out, h => by
    rw [assembleSkills] at h
    cases hc : cellCompute s d rolls with
    | none => rw [hc, Option.none_bind] at h; cases h
    | some pr =>
      rw [hc, Option.some_bind] at h
      cases hs : assembleSkills d ss pr.2 with
      | none => rw [hs, Option.none_bind] at h; cases h
      | some qr =>
        rw [hs, Option.some_bind] at h
        cases h
        intro e he
        rcases List.mem_cons.mp he with he1 | he1
        · rw [he1]
        · exact assembleSkills_keys ss d pr.2 qr hs e he1

lemma assembleSkills_lookup : ∀ (ss : List ℤ) (d : ℤ) (rolls : List ℤ)
    (out : List ((ℤ × ℤ) × List ℤ) × List ℤ),
    assembleSkills d ss rolls = some out → ∀ s ∈ ss,
    ∃ v, lookupTable out.1 (s, d) = some v ∧ v.length = 9
  | [], d, rolls, out, h, s, hs => by cases hs
  | s0 :: ss, d, rolls, out, h, s, hs => by
    rw [assembleSkills] at h
    cases hc : cellCompute s0 d rolls with
    | none => rw [hc, Option.none_bind] at h; cases h
    | some pr =>
      rw [hc, Option.some_bind] at h
      cases hrec : assembleSkills d ss pr.2 with
      | none => rw [hrec, Option.none_bind] at h; cases h
      | some qr =>
        rw [hrec, Option.some_bind] at h
        cases h
        by_cases hss : s0 = s
        · refine ⟨pr.1, ?_, cellCompute_len s0 d rolls pr hc⟩
          rw [lookupTable, if_pos (by rw [hss])]
        · rcases List.mem_cons.mp hs with h1 | h1
          · exact absurd h1.symm hss
          · obtain ⟨v, hv, hvl⟩ := assembleSkills_lookup ss d pr.2 qr hrec s h1
            refine ⟨v, ?_, hvl⟩
            rw [lookupTable, if_neg (by intro he; exact hss (congrArg Prod.fst he))]
            exact hv

lemma assembleAll_lookup : ∀ (ds : List ℤ) (rolls : List ℤ)
    (out : List ((ℤ × ℤ) × List ℤ) × List ℤ),
    assembleAll ds rolls = some out → ∀ d ∈ ds, ∀ s ∈ skillList,
    ∃ v, lookupTable out.1 (s, d) = some v ∧ v.length = 9
  | [], rolls, out, h, d, hd, s, hs => by cases hd
  | d0 :: ds, rolls, out, h, d, hd, s, hs => by
    rw [assembleAll] at h
    cases ha : assembleSkills d0 skillList rolls with
    | none => rw [ha, Option.none_bind] at h; cases h
    | some pr =>
      rw [ha, Option.some_bind] at h
      cases hrec : assembleAll ds pr.2 with
      | none => rw [hrec, Option.none_bind] at h; cases h
      | some qr =>
        rw [hrec, Option.some_bind] at h
        cases h
        by_cases hdd : d = d0
        · obtain ⟨v, hv, hvl⟩ := assembleSkills_lookup skillList d0 rolls pr ha s hs
          refine ⟨v, ?_, hvl⟩
          rw [hdd]
          exact lookupTable_append_left _ _ _ _ hv
        · rcases List.mem_cons.mp hd with h1 | h1
          · exact absurd h1 hdd
          · obtain ⟨v, hv, hvl⟩ := assembleAll_lookup ds pr.2 qr hrec d h1 s hs
            refine ⟨v, ?_, hvl⟩
            rw [lookupTable_append_right]
            · exact hv
            · exact lookupTable_eq_none _ _ fun e he hekey => by
                have hk := assembleSkills_keys skillList d0 rolls pr ha e he
                rw [hekey] at hk
                simp at hk
                exact hdd hk

/-! ## Counting lemmas for `make_histogram` -/

/-- Association-list lookup for the counting dict. -/
def lookupCnt : List (ℤ × ℤ) → ℤ → Option ℤ
  | [], _ => none
  | (k, v) :: rest, key => if k = key then some v else lookupCnt rest key

lemma bump_lookup : ∀ (d : List (ℤ × ℤ)) (r key : ℤ),
    lookupCnt (bump d r) key =
      if key = r then some ((lookupCnt d r).getD 0 + 1) else lookupCnt d key
  | [], r, key => by
    simp only [bump, lookupCnt]
    split_ifs <;> simp_all
  | (k0, c) :: rest, r, key => by
    simp only [bump, lookupCnt]
    by_cases hk : k0 = r
    · subst hk
      simp only [if_pos rfl, lookupCnt]
      split_ifs <;> simp_all
    · simp only [if_neg hk, lookupCnt, bump_lookup rest r key]
      split_ifs <;> simp_all

lemma foldl_bump_lookup : ∀ (rs : List ℤ) (acc : List (ℤ × ℤ)) (key : ℤ),
    lookupCnt (rs.foldl bump acc) key =
      if key ∈ rs ∨ (lookupCnt acc key).isSome = true
      then some ((lookupCnt acc key).getD 0 + (rs.count key : ℤ))
      else none
  | [], acc, key => by
    simp only [List.foldl_nil, List.count_nil, List.not_mem_nil, false_or]
    cases h : lookupCnt acc key <;> simp [h]
  | r :: rs, acc, key => by
    rw [List.foldl_cons, foldl_bump_lookup rs (bump acc r) key, bump_lookup]
    by_cases hkr : key = r
    · subst hkr
      simp only [if_pos rfl, List.mem_cons, true_or, or_true, if_pos,
        Option.isSome_some, Option.getD_some]
      rw [List.count_cons_self]
      congr 1
      push_cast
      ring
    · rw [if_neg hkr]
      have hcnt : (r :: rs).count key = rs.count key := by
        rw [List.count_cons, if_neg (by simpa using fun h => hkr h.symm)]
        omega
      have hiff : (key ∈ r :: rs ∨ (lookupCnt acc key).isSome = true) ↔
          (key ∈ rs ∨ (lookupCnt acc key).isSome = true) := by
        simp [List.mem_cons, hkr]
      rw [hcnt]
      exact (if_congr hiff rfl rfl).symm

lemma bump_keys : ∀ (d : List (ℤ × ℤ)) (r : ℤ),
    (bump d r).map Prod.fst =
      if r ∈ d.map Prod.fst then d.map Prod.fst else d.map Prod.fst ++ [r]
  | [], r => by simp [bump]
  | (k0, c) :: rest, r => by
    by_cases hk : k0 = r
    · subst hk
      simp [bump]
    · simp only [bump, if_neg hk, List.map_cons, bump_keys rest r]
      split_ifs with h1 h2 h3 <;> simp_all

lemma nodup_keys_bump (d : List (ℤ × ℤ)) (r : ℤ) (h : (d.map Prod.fst).Nodup) :
    ((bump d r).map Prod.fst).Nodup := by
  rw [bump_keys]
  split_ifs with hm
  · exact h
  · simp [List.nodup_append, h, hm]

lemma nodup_keys_foldl : ∀ (rs : List ℤ) (acc : List (ℤ × ℤ)),
    (acc.map Prod.fst).Nodup → ((rs.foldl bump acc).map Prod.fst).Nodup
  | [], acc, h => h
  | r :: rs, acc, h => by
    rw [List.foldl_cons]
    exact nodup_keys_foldl rs (bump acc r) (nodup_keys_bump acc r h)

lemma lookupCnt_of_mem : ∀ (d : List (ℤ × ℤ)) (k c : ℤ),
    (d.map Prod.fst).Nodup → (k, c) ∈ d → lookupCnt d k = some c
  | [], k, c, _, hm => by cases hm
  | (k0, c0) :: rest, k, c, hnd, hm => by
    rcases List.mem_cons.mp hm with he | he
    · cases he
      rw [lookupCnt, if_pos rfl]
    · have hk : k0 ≠ k := by
        intro hkk
        subst hkk
        have : k0 ∈ rest.map Prod.fst := List.mem_map.mpr ⟨(k0, c), he, rfl⟩
        simp [List.map_cons, List.nodup_cons, this] at hnd
      rw [lookupCnt, if_neg hk]
      exact lookupCnt_of_mem rest k c (by simp [List.map_cons, List.nodup_cons] at hnd; exact hnd.2) he

lemma counts_mem (rs : List ℤ) (k c : ℤ) (h : (k, c) ∈ rs.foldl bump []) :
    c = (rs.count k : ℤ) := by
  have hnd : ((rs.foldl bump []).map Prod.fst).Nodup :=
    nodup_keys_foldl rs [] (by simp)
  have hlk := lookupCnt_of_mem _ k c hnd h
  rw [foldl_bump_lookup rs [] k] at hlk
  split_ifs at hlk with hc
  cases hlk
  simp [lookupCnt]

/-! ## The annotation loop of `make_histogram` -/

lemma annotate_length : ∀ (cs : List (ℤ × ℤ)) (run : ℤ),
    (annotate cs run).length = cs.length
  | [], _ => rfl
  | (k, c) :: rest, run => by
    rw [annotate]
    simpa using annotate_length rest _

lemma annotate_mem : ∀ (cs : List (ℤ × ℤ)) (run k : ℤ) (s : Sample),
    (k, s) ∈ annotate cs run → (k, s.count) ∈ cs
  | [], run, k, s, h => by cases h
  | (k0, c0) :: rest, run, k, s, h => by
    rw [annotate] at h
    rcases List.mem_cons.mp h with he | he
    · cases he
      exact List.mem_cons_self _ _
    · exact List.mem_cons_of_mem _ (annotate_mem rest _ k s he)

lemma annotate_spec : ∀ (cs : List (ℤ × ℤ)) (run : ℤ) (i : ℕ), i < cs.length →
    ((annotate cs run).getD i ((0 : ℤ), ⟨0, 0, 0⟩)).1 = (cs.getD i ((0 : ℤ), (0 : ℤ))).1 ∧
    ((annotate cs run).getD i ((0 : ℤ), ⟨0, 0, 0⟩)).2.count = (cs.getD i ((0 : ℤ), (0 : ℤ))).2 ∧
    ((annotate cs run).getD i ((0 : ℤ), ⟨0, 0, 0⟩)).2.absolute_percentage
      = pyFloatPercentage (cs.getD i ((0 : ℤ), (0 : ℤ))).2 ∧
    ((annotate cs run).getD i ((0 : ℤ), ⟨0, 0, 0⟩)).2.running_percentage
      = run + (((annotate cs run).take (i + 1)).map
          (fun q => q.2.absolute_percentage)).sum
  | [], run, i, hi => by cases hi
  | (k0, c0) :: rest, run, 0, hi => by
    rw [annotate]
    refine ⟨by rw [List.getD_cons_zero, List.getD_cons_zero],
      by rw [List.getD_cons_zero, List.getD_cons_zero],
      by rw [List.getD_cons_zero, List.getD_cons_zero],
      ?_⟩
    rw [List.getD_cons_zero, List.take_succ_cons, List.take_zero, List.map_cons]
    simp
  | (k0, c0) :: rest, run, i + 1, hi => by
    rw [annotate, List.getD_cons_succ, List.getD_cons_succ, List.take_succ_cons,
      List.map_cons, List.sum_cons]
    obtain ⟨h1, h2, h3, h4⟩ := annotate_spec rest
      (run + pyFloatPercentage c0) i (by simpa using Nat.lt_of_succ_lt_succ hi)
    refine ⟨h1, h2, h3, ?_⟩
    rw [h4]
    ring

/-- Fidelity of the double-precision model at the two tie counts in
`[0, SAMPLES]` where it departs from exact-rational rounding, matching the
program: `float(8175)/15000*100` lands just above 54.5 and rounds up. -/
lemma pyFloatPercentage_tie_up :
    pyFloatPercentage 8175 = 55 ∧ pyRound (100 * 8175) (SAMPLES : ℤ) = 54 :=
  ⟨by decide, by decide⟩

/-- Dually, `float(8625)/15000*100` lands just below 57.5 and rounds down. -/
lemma pyFloatPercentage_tie_down :
    pyFloatPercentage 8625 = 57 ∧ pyRound (100 * 8625) (SAMPLES : ℤ) = 58 :=
  ⟨by decide, by decide⟩

/-! ## Claim theorems -/

/-- Claim C1, counterexample: on the empty histogram the resampler raises
nothing and returns exactly the 9-entry all-sentinel table. -/
theorem C1_counterexample :
    resample_into_d9 [] 5 = Except.ok [5, 5, 5, 5, 5, 5, 5, 5, 5] := by rfl

/-- Claim C1 (amended): when given an empty histogram, `resample_into_d9`
signals no error; it returns the all-sentinel table
`[min(floor_value, 99)] * 9`. -/
theorem C1_theorem (m : ℤ) :
    resample_into_d9 [] m = Except.ok (List.replicate 9 (min m 99)) :=
  resample_uniform 0 m

/-- Claim C2, counterexample: on the forward-filled table
`[5, 5, 5, 5, 7, 7, 7, 7, 7]` the backward pass leaves slot 0 as the sentinel
5 even though slot 1 ends up 7 — slot 0 is not backward-filled from slot 1 —
and the same shows end to end: the histogram with one bucket at running
percentage 50 resamples to `[5, 7, 7, 7, 7, 7, 7, 7, 7]`. -/
theorem C2_counterexample :
    backFill 5 backIdx [5, 5, 5, 5, 7, 7, 7, 7, 7] =
      Except.ok [5, 7, 7, 7, 7, 7, 7, 7, 7] ∧
    resample_into_d9 [((7 : ℤ), ⟨1, 50, 50⟩)] 5 =
      Except.ok [5, 7, 7, 7, 7, 7, 7, 7, 7] ∧ (5 : ℤ) ≠ 7 :=
  ⟨by rfl, by rfl, by decide⟩

/-- Claim C2 (amended): the backward-fill pass runs over slot indices 7 down
to 1 only; each such slot still holding the sentinel receives the following
slot's (final) value, while slots 0 and 8 are never modified by the pass. -/
theorem C2_theorem (m : ℤ) (l : List ℤ) (hl : l.length = 9) :
    ∃ r, backFill m backIdx l = Except.ok r ∧
      r.getD 0 0 = l.getD 0 0 ∧ r.getD 8 0 = l.getD 8 0 ∧
      ∀ i, 1 ≤ i → i ≤ 7 →
        r.getD i 0 = if l.getD i 0 = m then r.getD (i + 1) 0 else l.getD i 0 := by
  obtain ⟨r, hr, _, hout, hrec⟩ := backFill_from 7 m l (by omega)
  rw [descIdx_seven] at hr
  exact ⟨r, hr, hout 0 (Or.inl rfl), hout 8 (Or.inr (by omega)), hrec⟩

/-- Witness for C2 at a concrete length-9 list. -/
theorem C2_witness :
    ∃ r, backFill 5 backIdx [5, 5, 5, 5, 7, 5, 5, 5, 5] = Except.ok r ∧
      r.getD 0 0 = ([5, 5, 5, 5, 7, 5, 5, 5, 5] : List ℤ).getD 0 0 ∧
      r.getD 8 0 = ([5, 5, 5, 5, 7, 5, 5, 5, 5] : List ℤ).getD 8 0 ∧
      ∀ i, 1 ≤ i → i ≤ 7 →
        r.getD i 0 = if ([5, 5, 5, 5, 7, 5, 5, 5, 5] : List ℤ).getD i 0 = 5
          then r.getD (i + 1) 0 else ([5, 5, 5, 5, 7, 5, 5, 5, 5] : List ℤ).getD i 0 :=
  C2_theorem 5 [5, 5, 5, 5, 7, 5, 5, 5, 5] (by decide)

/-- Claim C3, counterexample: with an outcome key 0 below the floor value 5
the output contains 0 < 5, and with floor value 100 on the empty histogram
the output is all 99 < 100; both violate `floor_value ≤ v`. -/
theorem C3_counterexample :
    (resample_into_d9 [((0 : ℤ), ⟨1, 50, 50⟩)] 5 =
        Except.ok [5, 0, 0, 0, 0, 0, 0, 0, 0] ∧ ¬ ((5 : ℤ) ≤ 0)) ∧
    (resample_into_d9 [] 100 = Except.ok (List.replicate 9 (99 : ℤ)) ∧
      ¬ ((100 : ℤ) ≤ 99)) :=
  ⟨⟨by rfl, by decide⟩, ⟨by rfl, by decide⟩⟩

/-- Claim C3 (amended): for every histogram whose outcome keys are all at
least `floor_value`, the output is exactly 9 integers, each in
`[min(floor_value, 99), 99]`. -/
theorem C3_theorem (h : List (ℤ × Sample)) (m : ℤ)
    (hkeys : ∀ k s, (k, s) ∈ h → m ≤ k) :
    ∃ l, resample_into_d9 h m = Except.ok l ∧ l.length = 9 ∧
      ∀ v ∈ l, min m 99 ≤ v ∧ v ≤ 99 := by
  obtain ⟨l, hok, hlen, hval⟩ := resample_master h m
  refine ⟨l, hok, hlen, fun v hv => ?_⟩
  obtain ⟨u, hu, rfl⟩ := hval v hv
  have hum : m ≤ u := by
    rcases hu with rfl | ⟨k, s, hks, huk⟩
    · exact le_refl _
    · rw [huk]; exact hkeys k s hks
  exact ⟨min_le_min hum (le_refl 99), min_le_right _ _⟩

/-- Witness for C3 at a concrete one-bucket histogram. -/
theorem C3_witness :
    ∃ l, resample_into_d9 [((8 : ℤ), ⟨1, 50, 50⟩)] 3 = Except.ok l ∧ l.length = 9 ∧
      ∀ v ∈ l, min (3 : ℤ) 99 ≤ v ∧ v ≤ 99 :=
  C3_theorem [((8 : ℤ), ⟨1, 50, 50⟩)] 3 (by
    intro k s hks
    have h1 : k = 8 := congrArg Prod.fst (List.mem_singleton.mp hks)
    omega)

/-- Claim C9: the resampler never mutates its histogram argument — the
histogram threaded through the state-passing embedding comes back unchanged,
with every key and every `Sample` field identical. -/
theorem C9_theorem (h : List (ℤ × Sample)) (m : ℤ) : (resampleST h m).2 = h := by
  unfold resampleST
  cases hb : backFill m backIdx (fwdFill m fwdIdx
      (bandWrite (invertLoop h []).1 (List.replicate 9 m))) with
  | error e => exact invertLoop_snd h []
  | ok r => exact invertLoop_snd h []

/-- Claim C10: every entry of the resampled table is the 99-clamp of either
the sentinel `min_value` or an outcome key of the histogram. -/
theorem C10_theorem (h : List (ℤ × Sample)) (m : ℤ) (l : List ℤ)
    (hok : resample_into_d9 h m = Except.ok l) :
    ∀ v ∈ l, v = min m 99 ∨ ∃ k s, (k, s) ∈ h ∧ v = min k 99 := by
  obtain ⟨l2, hok2, _, hval⟩ := resample_master h m
  rw [hok] at hok2
  cases hok2
  intro v hv
  obtain ⟨u, hu, rfl⟩ := hval v hv
  rcases hu with rfl | ⟨k, s, hks, huk⟩
  · exact Or.inl rfl
  · exact Or.inr ⟨k, s, hks, by rw [huk]⟩

/-- Witness for C10: the entry 2 of the table for the one-bucket histogram
at key 2 with floor 7 is `min 2 99`. -/
theorem C10_witness :
    (2 : ℤ) = min 7 99 ∨
      ∃ k s, (k, s) ∈ [((2 : ℤ), (⟨1, 40, 40⟩ : Sample))] ∧ (2 : ℤ) = min k 99 :=
  C10_theorem [((2 : ℤ), ⟨1, 40, 40⟩)] 7 [7, 2, 2, 2, 2, 2, 2, 2, 2] (by rfl) 2 (by decide)

/-- Claim C5: out-of-range band writes at indices beyond the table are
dropped as no-ops, the backward pass never reaches its error branch on
length-9 tables, and the resampler returns normally on every non-empty
histogram. -/
theorem C5_theorem :
    (∀ (l : List ℤ) (idx v : ℤ), (l.length : ℤ) ≤ idx → pySet l idx v = l) ∧
    (∀ (m : ℤ) (res : List ℤ), res.length = 9 →
      ∃ r, backFill m backIdx res = Except.ok r) ∧
    (∀ (h : List (ℤ × Sample)) (m : ℤ), h ≠ [] →
      ∃ l, resample_into_d9 h m = Except.ok l) := by
  refine ⟨pySet_oob, fun m res hres => ?_, fun h m _ => ?_⟩
  · obtain ⟨r, hr, _, _⟩ := backFill_ok_sub backIdx m res (by rw [hres]; decide)
    exact ⟨r, hr⟩
  · obtain ⟨l, hok, _, _⟩ := resample_master h m
    exact ⟨l, hok⟩

/-- Witness for C5 at concrete inputs. -/
theorem C5_witness :
    pySet [0, 0, 0, 0, 0, 0, 0, 0, 0] 9 1 = [0, 0, 0, 0, 0, 0, 0, 0, 0] ∧
    (∃ r, backFill 5 backIdx (List.replicate 9 (5 : ℤ)) = Except.ok r) ∧
    (∃ l, resample_into_d9 [((3 : ℤ), ⟨2, 60, 60⟩)] 3 = Except.ok l) :=
  ⟨C5_theorem.1 [0, 0, 0, 0, 0, 0, 0, 0, 0] 9 1 (by decide),
    C5_theorem.2.1 5 (List.replicate 9 (5 : ℤ)) (by decide),
    C5_theorem.2.2 [((3 : ℤ), ⟨2, 60, 60⟩)] 3 (by decide)⟩

/-- Claim C6, Scenario A: with `target_roll = 100` and `distance = 5`, for any
positive trial count, whenever the simulation completes on a stream of valid
rolls (each at most 100), building the histogram and resampling with floor 5
yields exactly `[5, 5, 5, 5, 5, 5, 5, 5, 5]`. -/
theorem C6_theorem (n : ℕ) (rolls res rest : List ℤ) (_hn : 0 < n)
    (hall : ∀ r ∈ rolls, r ≤ 100)
    (h : cruiseTestsN n 100 5 rolls = some (res, rest)) :
    resample_into_d9 (make_histogram res) 5 = Except.ok (List.replicate 9 (5 : ℤ)) := by
  have hres := cruiseTestsN_success n 100 5 rolls res rest hall h
  have hcast : (((5 : ℤ).toNat : ℤ)) = 5 := rfl
  rw [hres, hcast]
  have h5 := resample_uniform n 5
  rw [show min (5 : ℤ) 99 = 5 from by decide] at h5
  exact h5

/-- Witness for C6 with one trial on an explicit roll stream. -/
theorem C6_witness : 0 < 1 ∧ (∀ r ∈ ([1, 1, 1, 1, 1] : List ℤ), r ≤ 100) ∧
    resample_into_d9 (make_histogram [5]) 5 = Except.ok (List.replicate 9 (5 : ℤ)) :=
  ⟨by decide, by decide,
    C6_theorem 1 [1, 1, 1, 1, 1] [5] [] (by decide) (by decide) (by rfl)⟩

/-- Claim C7: with non-positive distance every trial costs 0, no random draw
is consumed (the stream is returned untouched), and the result is 0 repeated
once per trial. -/
theorem C7_theorem (t dist : ℤ) (rolls : List ℤ) (hd : dist ≤ 0) :
    cruise_tests t dist rolls = some (List.replicate SAMPLES 0, rolls) := by
  rw [cruise_tests, cruiseTestsN, cruiseRuns_nonpos t dist hd SAMPLES rolls,
    Option.some_bind]
  have hs := List.Sorted.insertionSort_eq (sorted_replicate SAMPLES (0 : ℤ))
  rw [hs]

/-- Witness for C7 at concrete inputs. -/
theorem C7_witness : cruise_tests 50 0 [3, 4] = some (List.replicate SAMPLES 0, [3, 4]) :=
  C7_theorem 50 0 [3, 4] (by decide)

set_option maxRecDepth 4000 in
/-- Claim C4, counterexample: on the 150-outcome input of one hundred 2s and
fifty 1s the builder produces absolute percentages 1 and 0 and running
percentages 1 and 1 (dividing by the constant `SAMPLES = 15000` and summing
in first-occurrence order), whereas the claim's formula with
`total_trials = 150` predicts 67 and 33 and, in ascending outcome order,
running percentage 33 for outcome 1. -/
theorem C4_counterexample :
    make_histogram (List.replicate 100 2 ++ List.replicate 50 1)
        = [((2 : ℤ), ⟨100, 1, 1⟩), ((1 : ℤ), ⟨50, 0, 1⟩)] ∧
    pyRound (100 * 100) 150 = 67 ∧ ((1 : ℤ) ≠ 67) ∧
    pyRound (100 * 50) 150 = 33 ∧ ((1 : ℤ) ≠ 33) :=
  ⟨by decide, by decide, by decide, by decide, by decide⟩

/-- Claim C4 (amended): each bucket's `count` is the number of occurrences of
its outcome in the input, `absolute_percentage` is
`round(float(count) / SAMPLES * 100)` computed in IEEE-754 double precision
with the module constant `SAMPLES = 15000` as divisor (not the input length),
and `running_percentage` is the cumulative sum of `absolute_percentage` in
the dict's insertion (first-occurrence) order — which is ascending outcome
order whenever the input is sorted. -/
theorem C4_theorem (rs : List ℤ) (i : ℕ) (hi : i < (make_histogram rs).length) :
    ((make_histogram rs).getD i ((0 : ℤ), ⟨0, 0, 0⟩)).2.count
        = (rs.count ((make_histogram rs).getD i ((0 : ℤ), ⟨0, 0, 0⟩)).1 : ℤ) ∧
    ((make_histogram rs).getD i ((0 : ℤ), ⟨0, 0, 0⟩)).2.absolute_percentage
        = pyFloatPercentage ((make_histogram rs).getD i ((0 : ℤ), ⟨0, 0, 0⟩)).2.count ∧
    ((make_histogram rs).getD i ((0 : ℤ), ⟨0, 0, 0⟩)).2.running_percentage
        = (((make_histogram rs).take (i + 1)).map
            (fun q => q.2.absolute_percentage)).sum := by
  have hlen : (make_histogram rs).length = (rs.foldl bump []).length := by
    rw [make_histogram, annotate_length]
  have hi2 : i < (rs.foldl bump []).length := by rw [← hlen]; exact hi
  obtain ⟨h1, h2, h3, h4⟩ := annotate_spec (rs.foldl bump []) 0 i hi2
  rw [make_histogram]
  refine ⟨?_, ?_, ?_⟩
  · have hp : ((annotate (rs.foldl bump []) 0).getD i ((0 : ℤ), ⟨0, 0, 0⟩))
        ∈ annotate (rs.foldl bump []) 0 :=
      getD_mem _ i _ (by rw [annotate_length]; exact hi2)
    have hmem := annotate_mem (rs.foldl bump []) 0
      ((annotate (rs.foldl bump []) 0).getD i ((0 : ℤ), ⟨0, 0, 0⟩)).1
      ((annotate (rs.foldl bump []) 0).getD i ((0 : ℤ), ⟨0, 0, 0⟩)).2
      (by rw [Prod.mk.eta]; exact hp)
    exact counts_mem rs _ _ hmem
  · rw [h3, h2]
  · rw [h4, zero_add]

/-- Witness for C4 on the one-element input `[7]`. -/
theorem C4_witness :
    ((make_histogram [(7 : ℤ)]).getD 0 ((0 : ℤ), ⟨0, 0, 0⟩)).2.count
        = ([(7 : ℤ)].count ((make_histogram [(7 : ℤ)]).getD 0 ((0 : ℤ), ⟨0, 0, 0⟩)).1 : ℤ) ∧
    ((make_histogram [(7 : ℤ)]).getD 0 ((0 : ℤ), ⟨0, 0, 0⟩)).2.absolute_percentage
        = pyFloatPercentage ((make_histogram [(7 : ℤ)]).getD 0 ((0 : ℤ), ⟨0, 0, 0⟩)).2.count ∧
    ((make_histogram [(7 : ℤ)]).getD 0 ((0 : ℤ), ⟨0, 0, 0⟩)).2.running_percentage
        = (((make_histogram [(7 : ℤ)]).take (0 + 1)).map
            (fun q => q.2.absolute_percentage)).sum :=
  C4_theorem [7] 0 (by decide)

/-- Claim C8, counterexample: the assembled table of `main` has no entry for
skill 100 (the skill maximum is excluded by `range`), nor for distance 10. -/
theorem C8_counterexample :
    ¬ (∀ (rolls : List ℤ) (tbl : List ((ℤ × ℤ) × List ℤ)) (rest : List ℤ),
        mainTable rolls = some (tbl, rest) →
        (∃ v, lookupTable tbl ((100 : ℤ), (2 : ℤ)) = some v) ∧
        (∃ v, lookupTable tbl ((20 : ℤ), (10 : ℤ)) = some v)) := by
  intro hall
  obtain ⟨⟨v1, hv1⟩, -⟩ := hall (List.replicate 5280000 1) uniformTable [] mainTable_ones
  have hnone : lookupTable uniformTable ((100 : ℤ), (2 : ℤ)) = none := by decide
  rw [hnone] at hv1
  cases hv1

/-- Claim C8 (amended): whenever `main`'s assembly completes, the table has a
9-entry value for every pair with skill in `{20, 30, ..., 90}` and distance in
`{2, ..., 9}` (the `range` upper bounds 100 and 10 are excluded). -/
theorem C8_theorem (rolls : List ℤ) (tbl : List ((ℤ × ℤ) × List ℤ)) (rest : List ℤ)
    (h : mainTable rolls = some (tbl, rest)) :
    ∀ s ∈ skillList, ∀ d ∈ distanceList,
      ∃ v, lookupTable tbl (s, d) = some v ∧ v.length = 9 := by
  intro s hs d hd
  rw [mainTable] at h
  exact assembleAll_lookup distanceList rolls (tbl, rest) h d hd s hs

/-- Witness for C8 on the all-ones roll stream. -/
theorem C8_witness :
    ∃ v, lookupTable uniformTable ((20 : ℤ), (2 : ℤ)) = some v ∧ v.length = 9 :=
  C8_theorem (List.replicate 5280000 1) uniformTable [] mainTable_ones
    20 (by decide) 2 (by decide)
